import Mathlib

/-!
Shallow embedding of the recipe (workflow template) subsystem in
`src/agent/recipes.py`: the `Recipe`/`RecipeStep` data model with its
dict (de)serialization, the `RecipeExecutor` step interpreter
(variable substitution, condition evaluation, per-step error policy),
and the `RecipeManager.list_recipes` query.

Python strings are modelled by `String`, Python's `None`-able values by
`Option`, Python dicts by insertion-ordered association lists
(`List (String × Value)`), and arbitrary Python values by the inductive
`Value`.  Tool callables may have side effects, so a tool is modelled as
a state-passing function over an abstract world type `σ`; a tool call
either returns a value or fails (a Python exception carrying a message).
-/

set_option maxHeartbeats 1000000

namespace Recipes

/-- A Python runtime value (the payloads that flow through parameters,
variables, tool results and serialized recipes). -/
inductive Value where
  | str : String → Value
  | int : Int → Value
  | bool : Bool → Value
  | null : Value
  | list : List Value → Value
  | dict : List (String × Value) → Value

/-- Python `dict` lookup (`d.get(k)` / `d[k]`) on an insertion-ordered
association list. -/
def lookupVar (vars : List (String × Value)) (k : String) : Option Value :=
  match vars with
  | [] => none
  | (k', v) :: rest => if k' = k then some v else lookupVar rest k

/-- Python `d[k] = v`: overwrite in place if the key exists (keeping its
position), otherwise append the new binding at the end. -/
def setVar (vars : List (String × Value)) (k : String) (v : Value) :
    List (String × Value) :=
  match vars with
  | [] => [(k, v)]
  | (k', v') :: rest => if k' = k then (k', v) :: rest else (k', v') :: setVar rest k v

/-- Python membership test `k in d` on a dict. -/
def hasKey (vars : List (String × Value)) (k : String) : Bool :=
  (lookupVar vars k).isSome

/-- Model of `RecipeStep` (recipes.py lines 19-28): a single step in a recipe. -/
structure RecipeStep where
  id : String
  tool_name : String
  description : String
  parameters : List (String × Value)
  condition : Option String
  on_error : String

/-- Model of `Recipe` (recipes.py lines 31-45): a workflow recipe (template). -/
structure Recipe where
  id : String
  name : String
  description : String
  category : String
  steps : List RecipeStep
  metadata : List (String × Value)
  created_at : String
  updated_at : String
  version : String
  author : String
  tags : List String

/-- The variable-reference test of `_substitute_variables` (line 281):
`value.startswith("$\x7b") and value.endswith("\x7d")`, and on a match the
referenced name `value[2:-1]` (line 283).  Prefix/suffix tests and
slicing of a Python `str` are modelled on the character list. -/
def varRefName (s : String) : Option String :=
  if "$\x7b".data.isPrefixOf s.data && "\x7d".data.isSuffixOf s.data then
    some ⟨(s.data.drop 2).dropLast⟩
  else
    none

/-- Substitution of a single parameter value (`_substitute_variables`,
lines 280-286): a string of the exact shape `$\x7bname\x7d` is replaced by
`variables.get(name, value)`; everything else passes through. -/
def substituteValue (vars : List (String × Value)) (v : Value) : Value :=
  match v with
  | .str s =>
    match varRefName s with
    | some varName => (lookupVar vars varName).getD (.str s)
    | none => .str s
  | _ => v

/-- Model of `RecipeExecutor._substitute_variables` (lines 266-288): build a new
parameter dict with every value substituted. -/
def substituteVariables (parameters : List (String × Value))
    (vars : List (String × Value)) : List (String × Value) :=
  parameters.map (fun kv => (kv.1, substituteValue vars kv.2))

/-- A per-step outcome dict as recorded in `results` /
`execution_log["steps"]`: `success` (with the tool's result),
`skipped` (with a reason) or `error` (with the error message). -/
inductive StepResult where
  | success (step_id tool_name : String) (result : Value)
  | skipped (step_id tool_name : String) (reason : String)
  | error (step_id tool_name : String) (message : String)

/-- The `"status"` field of a step outcome dict. -/
def StepResult.status : StepResult → String
  | .success .. => "success"
  | .skipped .. => "skipped"
  | .error .. => "error"

/-- The `"step_id"` field of a step outcome dict. -/
def StepResult.stepId : StepResult → String
  | .success i _ _ => i
  | .skipped i _ _ => i
  | .error i _ _ => i

/-- Projection `step_result.get("result")` (line 165): present only on success,
`None` otherwise. -/
def StepResult.getResult : StepResult → Value
  | .success _ _ r => r
  | _ => .null

/-- Model of `RecipeExecutor._evaluate_condition` (lines 290-315).  The
`variables` argument is accepted but unused, as in the source. -/
def evaluateCondition (condition : String) (vars : List (String × Value))
    (results : List StepResult) : Bool :=
  if condition = "previous_success" then
    match results.getLast? with
    | some lastResult => lastResult.status = "success"
    | none => true
  else
    true

/-- The skip guard at lines 143-145:
`if step.condition and not self._evaluate_condition(...)`.
A `None` or empty-string condition is falsy, so such a step is never
skipped. -/
def shouldSkip (condition : Option String) (vars : List (String × Value))
    (results : List StepResult) : Bool :=
  match condition with
  | none => false
  | some c => decide (c ≠ "") && !evaluateCondition c vars results

/-- A tool callable from the registry: it may carry out side effects
(world `σ`) and either return a result value or raise (an error
message). -/
def ToolFun (σ : Type) := σ → List (String × Value) → σ × Except String Value

/-- The executor's `tool_registry`: a mapping from tool name to
callable. -/
def Registry (σ : Type) := String → Option (ToolFun σ)

/-- A record of one actual capability invocation: which step, which
tool, and the substituted parameters it was called with. -/
structure StepCall where
  step_id : String
  tool_name : String
  params : List (String × Value)

/-- Model of `RecipeExecutor._execute_step` (lines 223-264): raise
`Tool not found: ...` when the tool is unregistered, otherwise
substitute variables into the parameters and invoke the tool; a tool
failure is re-raised as `Step <id> failed: <msg>`.  Besides the world
and the outcome, the list of capability invocations actually performed
(zero or one) is returned. -/
def executeStep {σ : Type} (registry : Registry σ) (step : RecipeStep)
    (vars : List (String × Value)) (w : σ) :
    σ × List StepCall × Except String StepResult :=
  match registry step.tool_name with
  | none => (w, [], .error ("Tool not found: " ++ step.tool_name))
  | some toolFun =>
    let parameters := substituteVariables step.parameters vars
    let call : StepCall := ⟨step.id, step.tool_name, parameters⟩
    match toolFun w parameters with
    | (w', .ok result) => (w', [call], .ok (.success step.id step.tool_name result))
    | (w', .error e) => (w', [call], .error ("Step " ++ step.id ++ " failed: " ++ e))

/-- The mutable state of one run of `execute_recipe`: the variable
context, the `results` list, the execution log's `steps` list, the
invocation trace and the tools' world. -/
structure RunState (σ : Type) where
  vars : List (String × Value)
  results : List StepResult
  logSteps : List StepResult
  trace : List StepCall
  world : σ

/-- How the `for` loop of `execute_recipe` ends: an early `return` from
the `stop` policy (with the triggering error), or normal completion. -/
inductive LoopOutcome (σ : Type) where
  | failedEarly (e : String) (st : RunState σ)
  | completed (st : RunState σ)

/-- The per-step `for` loop of `execute_recipe` (lines 141-198).
For each step: skip when the condition guard fires (lines 143-154);
otherwise execute the step, and on success record the outcome in both
`results` and the log and bind `step_<id>_result` (lines 157-165).  On
error, record the error outcome in both lists (lines 167-175), then:
`stop` returns early (lines 178-187), `retry` re-invokes once, appending
a successful retry's outcome to `results` only and binding nothing
(lines 190-198), and `continue` (or any other policy) moves on. -/
def execLoop {σ : Type} (registry : Registry σ) :
    List RecipeStep → RunState σ → LoopOutcome σ
  | [], st => .completed st
  | step :: rest, st =>
    if shouldSkip step.condition st.vars st.results then
      let r := StepResult.skipped step.id step.tool_name
        ("Condition not met: " ++ step.condition.getD "")
      execLoop registry rest
        { st with results := st.results ++ [r], logSteps := st.logSteps ++ [r] }
    else
      match executeStep registry step st.vars st.world with
      | (w', calls, .ok r) =>
        execLoop registry rest
          { vars := setVar st.vars ("step_" ++ step.id ++ "_result") r.getResult
            results := st.results ++ [r]
            logSteps := st.logSteps ++ [r]
            trace := st.trace ++ calls
            world := w' }
      | (w', calls, .error e) =>
        let r := StepResult.error step.id step.tool_name e
        let st' : RunState σ :=
          { st with results := st.results ++ [r], logSteps := st.logSteps ++ [r],
                    trace := st.trace ++ calls, world := w' }
        if step.on_error = "stop" then
          .failedEarly e st'
        else if step.on_error = "retry" then
          match executeStep registry step st'.vars st'.world with
          | (w2, calls2, .ok r2) =>
            execLoop registry rest
              { st' with results := st'.results ++ [r2],
                         trace := st'.trace ++ calls2, world := w2 }
          | (w2, calls2, .error _) =>
            execLoop registry rest
              { st' with trace := st'.trace ++ calls2, world := w2 }
        else
          execLoop registry rest st'

/-- The value returned by `execute_recipe` together with the sealed
execution log's step list and status, the final variable context, the
invocation trace and the final world. -/
structure RunResult (σ : Type) where
  status : String
  error : Option String
  results : List StepResult
  logSteps : List StepResult
  logStatus : String
  vars : List (String × Value)
  trace : List StepCall
  world : σ

/-- Sealing of the run (lines 178-187 for the `stop` early return,
lines 200-208 for normal completion): the execution log gets its final
status and the return dict is built from the recorded results. -/
def sealRun {σ : Type} : LoopOutcome σ → RunResult σ
  | .failedEarly e st =>
      ⟨"failed", some e, st.results, st.logSteps, "failed", st.vars, st.trace, st.world⟩
  | .completed st =>
      ⟨"completed", none, st.results, st.logSteps, "completed", st.vars, st.trace, st.world⟩

/-- Model of `RecipeExecutor.execute_recipe` (lines 115-221).  The caller may
pass `variables=None`; `variables = variables or \x7b\x7d` (line 128) starts
from an empty context in that case (`Option.getD`). -/
def executeRecipe {σ : Type} (registry : Registry σ) (recipe : Recipe)
    (vars? : Option (List (String × Value))) (w : σ) : RunResult σ :=
  sealRun (execLoop registry recipe.steps ⟨vars?.getD [], [], [], [], w⟩)

/-- The caller's `variables` dict after a run, modelling the aliasing of
line 128: `variables = variables or \x7b\x7d` rebinds the local name to a
fresh dict when the caller's dict is empty (falsy), so only a non-empty
caller dict is mutated in place by the run. -/
def callerVariablesAfter {σ : Type} (registry : Registry σ) (recipe : Recipe)
    (callerVars : List (String × Value)) (w : σ) : List (String × Value) :=
  if callerVars.isEmpty then callerVars
  else (executeRecipe registry recipe (some callerVars) w).vars


/-! ### Serialization (`Recipe.to_dict` / `Recipe.from_dict`) -/

/-- The step entries built by `Recipe.to_dict` (lines 54-64). -/
def RecipeStep.toDict (step : RecipeStep) : Value :=
  .dict [("id", .str step.id),
         ("tool_name", .str step.tool_name),
         ("description", .str step.description),
         ("parameters", .dict step.parameters),
         ("condition", match step.condition with | some c => .str c | none => .null),
         ("on_error", .str step.on_error)]

/-- Model of `Recipe.to_dict` (lines 47-71): convert recipe to dictionary. -/
def Recipe.to_dict (r : Recipe) : Value :=
  .dict [("id", .str r.id),
         ("name", .str r.name),
         ("description", .str r.description),
         ("category", .str r.category),
         ("steps", .list (r.steps.map RecipeStep.toDict)),
         ("metadata", .dict r.metadata),
         ("created_at", .str r.created_at),
         ("updated_at", .str r.updated_at),
         ("version", .str r.version),
         ("author", .str r.author),
         ("tags", .list (r.tags.map .str))]

/-- Read a string field out of a decoded `Value`. -/
def Value.asStr : Value → Option String
  | .str s => some s
  | _ => none

/-- Read a dict field out of a decoded `Value`. -/
def Value.asDict : Value → Option (List (String × Value))
  | .dict d => some d
  | _ => none

/-- Read a list field out of a decoded `Value`. -/
def Value.asList : Value → Option (List Value)
  | .list l => some l
  | _ => none

/-- Sequential decoding of a list (the list comprehension at lines
76-86 and the `tags` field): the first failing element aborts the
whole decode, as a raised exception would. -/
def decodeList {α : Type} (f : Value → Option α) : List Value → Option (List α)
  | [] => some []
  | v :: rest =>
    match f v, decodeList f rest with
    | some a, some bs => some (a :: bs)
    | _, _ => none

/-- The step decoding inside `Recipe.from_dict` (lines 76-86):
`step["id"]`, `step["tool_name"]` and `step["description"]` are
mandatory (a missing key raises `KeyError`, modelled as `none`);
`parameters` defaults to `\x7b\x7d`, `condition` to `None`, `on_error` to
`"stop"`.  A field holding a value of the wrong type also decodes to
`none` in this typed model. -/
def RecipeStep.fromDict (data : Value) : Option RecipeStep := do
  let d ← data.asDict
  let id ← (lookupVar d "id").bind Value.asStr
  let tool_name ← (lookupVar d "tool_name").bind Value.asStr
  let description ← (lookupVar d "description").bind Value.asStr
  let parameters ← match lookupVar d "parameters" with
    | none => some []
    | some v => v.asDict
  let condition ← match lookupVar d "condition" with
    | none => some none
    | some .null => some none
    | some (.str c) => some (some c)
    | some _ => none
  let on_error ← match lookupVar d "on_error" with
    | none => some "stop"
    | some v => v.asStr
  pure ⟨id, tool_name, description, parameters, condition, on_error⟩

/-- Decode the `tags` list of `Recipe.from_dict`. -/
def decodeTags : Value → Option (List String)
  | .list vs => decodeList Value.asStr vs
  | _ => none

/-- Model of `Recipe.from_dict` (lines 73-100): create recipe from dictionary.
`id`, `name`, `description`, `category` and `steps` are mandatory; the
rest default (`metadata` to `\x7b\x7d`, the timestamps to
`datetime.utcnow().isoformat()` — supplied here as the ambient `now` —
`version` to `"1.0.0"`, `author` to `"user"`, `tags` to `[]`). -/
def Recipe.from_dict (now : String) (data : Value) : Option Recipe := do
  let d ← data.asDict
  let stepsVal ← lookupVar d "steps"
  let stepDicts ← stepsVal.asList
  let steps ← decodeList RecipeStep.fromDict stepDicts
  let id ← (lookupVar d "id").bind Value.asStr
  let name ← (lookupVar d "name").bind Value.asStr
  let description ← (lookupVar d "description").bind Value.asStr
  let category ← (lookupVar d "category").bind Value.asStr
  let metadata ← match lookupVar d "metadata" with
    | none => some []
    | some v => v.asDict
  let created_at ← match lookupVar d "created_at" with
    | none => some now
    | some v => v.asStr
  let updated_at ← match lookupVar d "updated_at" with
    | none => some now
    | some v => v.asStr
  let version ← match lookupVar d "version" with
    | none => some "1.0.0"
    | some v => v.asStr
  let author ← match lookupVar d "author" with
    | none => some "user"
    | some v => v.asStr
  let tags ← match lookupVar d "tags" with
    | none => some []
    | some v => decodeTags v
  pure ⟨id, name, description, category, steps, metadata, created_at, updated_at,
        version, author, tags⟩

/-! ### The manager query (`RecipeManager.list_recipes`) -/

/-- The tag filter of `list_recipes` (line 382):
`any(tag in r.tags for tag in tags)`. -/
def matchesAnyTag (tags : List String) (r : Recipe) : Bool :=
  tags.any (fun tag => r.tags.contains tag)

/-- Model of `RecipeManager.list_recipes` (lines 364-384) over the stored
recipes: filter by category when one is given (a `None` or empty-string
category is falsy and filters nothing), then by tags when given (a
`None` or empty tag list is falsy and filters nothing), then sort by
`updated_at` descending (`sorted(..., reverse=True)`). -/
def list_recipes (stored : List Recipe) (category : Option String)
    (tags : Option (List String)) : List Recipe :=
  let recipes : List Recipe := stored
  let recipes : List Recipe := match category with
    | some c => if c ≠ "" then recipes.filter (fun r => decide (r.category = c)) else recipes
    | none => recipes
  let recipes : List Recipe := match tags with
    | some ts => if ts ≠ [] then recipes.filter (fun r => matchesAnyTag ts r) else recipes
    | none => recipes
  recipes.mergeSort (fun a b => b.updated_at ≤ a.updated_at)

/-! ### Concrete fixtures for witnesses and counterexamples -/

/-- A world-stateful tool registry: tool `"t"` fails on its first call
(world counter 0) with `boom` and succeeds with `"ok"` afterwards,
counting calls in the world. -/
def flakyRegistry : Registry Nat := fun n =>
  if n = "t" then
    some (fun w _ => (w + 1, if w = 0 then .error "boom" else .ok (.str "ok")))
  else
    none

/-- A registry whose tool `"t"` always succeeds with `"done"` and never
touches the world. -/
def okRegistry : Registry Nat := fun n =>
  if n = "t" then some (fun w _ => (w, .ok (.str "done"))) else none

/-- A registry whose tool `"t"` always fails with `bad`. -/
def failRegistry : Registry Nat := fun n =>
  if n = "t" then some (fun w _ => (w, .error "bad")) else none

/-- A single step with the `retry` policy. -/
def retryStep : RecipeStep := ⟨"s1", "t", "d", [], none, "retry"⟩

/-- A recipe holding just `retryStep`. -/
def retryRecipe : Recipe :=
  ⟨"r1", "n", "d", "cat", [retryStep], [], "t0", "t0", "1.0.0", "user", []⟩

/-- A single step with the `stop` policy. -/
def stopStep : RecipeStep := ⟨"s1", "t", "d", [], none, "stop"⟩

/-- A recipe holding just `stopStep`. -/
def stopRecipe : Recipe :=
  ⟨"r3", "n", "d", "cat", [stopStep], [], "t0", "t0", "1.0.0", "user", []⟩

/-- Two plain steps with no condition, used for the all-success run. -/
def okStepA : RecipeStep := ⟨"a", "t", "d", [], none, "stop"⟩

/-- Second plain step of the all-success run. -/
def okStepB : RecipeStep := ⟨"b", "t", "d", [], none, "continue"⟩

/-- A recipe with no steps at all. -/
def emptyRecipe : Recipe :=
  ⟨"r0", "n", "d", "cat", [], [], "t0", "t0", "1.0.0", "user", []⟩

/-- A recipe with the two plain steps. -/
def okRecipe : Recipe :=
  ⟨"r2", "n", "d", "cat", [okStepA, okStepB], [], "t0", "t0", "1.0.0", "user", []⟩

/-- Stored recipe in category `alpha` tagged `x`, updated earliest. -/
def recA : Recipe :=
  ⟨"a", "n", "d", "alpha", [], [], "t0", "2024-01-01", "1.0.0", "user", ["x"]⟩

/-- Stored recipe in category `beta` tagged `y`. -/
def recB : Recipe :=
  ⟨"b", "n", "d", "beta", [], [], "t0", "2024-02-01", "1.0.0", "user", ["y"]⟩

/-- Stored recipe in category `alpha` tagged `x` and `z`, updated last. -/
def recC : Recipe :=
  ⟨"c", "n", "d", "alpha", [], [], "t0", "2024-03-01", "1.0.0", "user", ["x", "z"]⟩

/-! ### Basic lemmas about the variable context -/

theorem lookupVar_setVar_self (vars : List (String × Value)) (k : String) (v : Value) :
    lookupVar (setVar vars k v) k = some v := by
  induction vars with
  | nil => simp [setVar, lookupVar]
  | cons kv rest ih =>
    obtain ⟨k', v'⟩ := kv
    by_cases h : k' = k <;> simp [setVar, lookupVar, h, ih]

theorem lookupVar_setVar_ne (vars : List (String × Value)) (k k' : String) (v : Value)
    (h : k ≠ k') : lookupVar (setVar vars k v) k' = lookupVar vars k' := by
  induction vars with
  | nil => simp [setVar, lookupVar, h]
  | cons kv rest ih =>
    obtain ⟨k₀, v₀⟩ := kv
    by_cases h₀ : k₀ = k
    · subst h₀
      simp [setVar, lookupVar, h]
    · simp [setVar, lookupVar, h₀, ih]

theorem hasKey_setVar_of_hasKey (vars : List (String × Value)) (k k' : String) (v : Value)
    (h : hasKey vars k' = true) : hasKey (setVar vars k v) k' = true := by
  by_cases hk : k = k'
  · subst hk
    simp [hasKey, lookupVar_setVar_self]
  · simpa [hasKey, lookupVar_setVar_ne vars k k' v hk] using h

/-! ### Generic structure of the execution loop -/

/-- The run state in which the loop ends, whether it returned early or
ran to completion. -/
def finalState {σ : Type} : LoopOutcome σ → RunState σ
  | .failedEarly _ st => st
  | .completed st => st

theorem execLoop_append {σ : Type} (registry : Registry σ) (l₁ l₂ : List RecipeStep)
    (st : RunState σ) :
    execLoop registry (l₁ ++ l₂) st =
      match execLoop registry l₁ st with
      | .failedEarly e st' => .failedEarly e st'
      | .completed st' => execLoop registry l₂ st' := by
  induction l₁ generalizing st with
  | nil => simp [execLoop]
  | cons step rest ih =>
    simp only [List.cons_append, execLoop]
    split
    · exact ih _
    · split
      · exact ih _
      · split
        · rfl
        · split
          · split
            · exact ih _
            · exact ih _
          · exact ih _

/-! ### The exact `\x24\x7bname\x7d` shape -/

theorem varRefName_wrap (name : String) : varRefName ("$\x7b" ++ name ++ "\x7d") = some name := by
  have h1 : "$\x7b".data = ['$', '\x7b'] := rfl
  have h2 : "\x7d".data = ['\x7d'] := rfl
  simp only [varRefName, String.data_append, h1, h2]
  rw [if_pos]
  · simp
  · simp only [Bool.and_eq_true, List.isPrefixOf_iff_prefix, List.isSuffixOf_iff_suffix]
    exact ⟨⟨name.data ++ ['\x7d'], rfl⟩, ⟨'$' :: '\x7b' :: name.data, rfl⟩⟩

theorem varRefName_eq_some {s name : String} (h : varRefName s = some name) :
    s = "$\x7b" ++ name ++ "\x7d" := by
  have h1 : "$\x7b".data = ['$', '\x7b'] := rfl
  have h2 : "\x7d".data = ['\x7d'] := rfl
  rw [varRefName] at h
  split at h
  case isTrue hc =>
    rw [h1, h2, Bool.and_eq_true, List.isPrefixOf_iff_prefix, List.isSuffixOf_iff_suffix] at hc
    obtain ⟨⟨t, ht⟩, ⟨u, hu⟩⟩ := hc
    have hname : name = ⟨(s.data.drop 2).dropLast⟩ := (Option.some_inj.mp h).symm
    match u, hu with
    | [], hu =>
      rw [← ht] at hu
      simp at hu
    | [a], hu =>
      rw [← ht] at hu
      simp at hu
    | a :: b :: u', hu =>
      rw [← ht] at hu
      obtain ⟨ha, hb, hu'⟩ : '$' = a ∧ '\x7b' = b ∧ t = u' ++ ['\x7d'] := by
        simpa using hu.symm
      subst ha
      subst hb
      have hdata : s.data = '$' :: '\x7b' :: (u' ++ ['\x7d']) := by
        rw [← ht, hu']
        rfl
      have hnd : name.data = u' := by rw [hname]; simp [hdata]
      apply String.ext
      simp [hdata, hnd]
  case isFalse => exact absurd h (by simp)

/-- C4: variable substitution replaces a parameter value that is exactly the
string `\x24\x7bname\x7d` with the raw value bound to `name` (any type), keeps the
literal string when `name` is unbound (`getD` falls back to the literal), passes
every parameter value not of that exact form (and every non-string value)
through unmodified, and preserves the parameter keys in order. -/
theorem substituteValue_spec (vars : List (String × Value)) :
    (∀ name : String, substituteValue vars (.str ("$\x7b" ++ name ++ "\x7d")) =
        (lookupVar vars name).getD (.str ("$\x7b" ++ name ++ "\x7d")))
    ∧ (∀ s : String, (∀ name : String, s ≠ "$\x7b" ++ name ++ "\x7d") →
        substituteValue vars (.str s) = .str s)
    ∧ (∀ v : Value, (∀ s : String, v ≠ .str s) → substituteValue vars v = v)
    ∧ (∀ params : List (String × Value),
        (substituteVariables params vars).map Prod.fst = params.map Prod.fst) := by
  refine ⟨?_, ?_, ?_, ?_⟩
  · intro name
    simp [substituteValue, varRefName_wrap]
  · intro s h
    rw [substituteValue]
    match hv : varRefName s with
    | none => rfl
    | some n => exact absurd (varRefName_eq_some hv) (h n)
  · intro v h
    match v with
    | .str s => exact absurd rfl (h s)
    | .int _ | .bool _ | .null | .list _ | .dict _ => rfl
  · intro params
    induction params with
    | nil => rfl
    | cons kv rest ih =>
      rw [substituteVariables] at ih ⊢
      simp only [List.map_cons]
      rw [ih]

/-- Witness for `substituteValue_spec` at concrete inputs: a bound reference is
replaced by the raw (non-string) value, an unbound reference stays literal, a
plain string and a non-string value pass through. -/
theorem substituteValue_spec_witness :
    substituteValue [("name", .int 3)] (.str "$\x7bname\x7d") = .int 3
    ∧ substituteValue [("name", .int 3)] (.str "$\x7bother\x7d") = .str "$\x7bother\x7d"
    ∧ substituteValue [("name", .int 3)] (.str "hello") = .str "hello"
    ∧ substituteValue [("name", .int 3)] (.int 7) = .int 7 := by
  refine ⟨?_, ?_, ?_, ?_⟩
  · exact ((substituteValue_spec [("name", .int 3)]).1 "name").trans rfl
  · exact ((substituteValue_spec [("name", .int 3)]).1 "other").trans rfl
  · refine (substituteValue_spec [("name", .int 3)]).2.1 "hello" ?_
    intro name h
    have h2 := congrArg String.data h
    have h3 : "hello".data = ['h', 'e', 'l', 'l', 'o'] := rfl
    have h4 : ("$\x7b" ++ name ++ "\x7d").data = '$' :: '\x7b' :: (name.data ++ ['\x7d']) := by
      simp [String.data_append]
    rw [h3, h4] at h2
    simp at h2
  · exact (substituteValue_spec [("name", .int 3)]).2.2.1 (.int 7)
      (fun s hs => Value.noConfusion hs)

/-! ### Components of the sealed run -/

theorem sealRun_results {σ : Type} (o : LoopOutcome σ) :
    (sealRun o).results = (finalState o).results := by
  cases o <;> rfl

theorem sealRun_logSteps {σ : Type} (o : LoopOutcome σ) :
    (sealRun o).logSteps = (finalState o).logSteps := by
  cases o <;> rfl

theorem sealRun_vars {σ : Type} (o : LoopOutcome σ) :
    (sealRun o).vars = (finalState o).vars := by
  cases o <;> rfl

theorem sealRun_trace {σ : Type} (o : LoopOutcome σ) :
    (sealRun o).trace = (finalState o).trace := by
  cases o <;> rfl

/-- C6: for every registry, recipe, input variables and world,
`execute_recipe` is a total function whose returned status is either
`completed` or `failed`; step-level failures surface only as structured
outcomes in `results`, never as an exception to the caller. -/
theorem executeRecipe_never_throws {σ : Type} (registry : Registry σ) (recipe : Recipe)
    (vars? : Option (List (String × Value))) (w : σ) :
    (executeRecipe registry recipe vars? w).status = "completed" ∨
    (executeRecipe registry recipe vars? w).status = "failed" := by
  rw [executeRecipe]
  cases execLoop registry recipe.steps ⟨vars?.getD [], [], [], [], w⟩ with
  | failedEarly e st => exact Or.inr rfl
  | completed st => exact Or.inl rfl

/-- C5: the skip guard of the executor never skips a step with no
condition; a step with condition `previous_success` runs iff there is no
prior recorded outcome or the immediately preceding recorded outcome has
status `success`; and a step with any other condition string (the empty
string included) always runs.  Both `shouldSkip` and
`evaluateCondition` are total functions, so condition evaluation never
raises. -/
theorem shouldSkip_spec (vars : List (String × Value)) (results : List StepResult) :
    shouldSkip none vars results = false
    ∧ (shouldSkip (some "previous_success") vars results = false ↔
        results = [] ∨ ∃ r, results.getLast? = some r ∧ r.status = "success")
    ∧ (∀ c : String, c ≠ "previous_success" → shouldSkip (some c) vars results = false) := by
  refine ⟨rfl, ?_, ?_⟩
  · cases hr : results.getLast? with
    | none =>
      have hnil : results = [] := List.getLast?_eq_none_iff.mp hr
      simp [shouldSkip, evaluateCondition, hr, hnil]
    | some r =>
      have hne : results ≠ [] := by
        intro h
        rw [h] at hr
        simp at hr
      simp only [shouldSkip, evaluateCondition, hr]
      constructor
      · intro h
        refine Or.inr ⟨r, rfl, ?_⟩
        by_cases hs : r.status = "success"
        · exact hs
        · simp [hs] at h
      · rintro (h | ⟨r', hr', hs⟩)
        · exact absurd h hne
        · cases hr'
          simp [hs]
  · intro c hc
    simp [shouldSkip, evaluateCondition, hc]

/-- Witness for `shouldSkip_spec`: an unrecognized condition string does
not skip the step. -/
theorem shouldSkip_spec_witness : shouldSkip (some "whenever") [] [] = false :=
  (shouldSkip_spec [] []).2.2 "whenever" (by decide)

/-! ### Results versus the execution log -/

theorem execLoop_results_eq_logSteps {σ : Type} (registry : Registry σ)
    (steps : List RecipeStep) (st : RunState σ)
    (h : ∀ s ∈ steps, s.on_error ≠ "retry")
    (hst : st.results = st.logSteps) :
    (finalState (execLoop registry steps st)).results =
      (finalState (execLoop registry steps st)).logSteps := by
  induction steps generalizing st with
  | nil => simpa [execLoop, finalState] using hst
  | cons step rest ih =>
    have hstep : step.on_error ≠ "retry" := h step (List.mem_cons_self step rest)
    have hrest : ∀ s ∈ rest, s.on_error ≠ "retry" :=
      fun s hs => h s (List.mem_cons_of_mem step hs)
    rw [execLoop]
    split
    · exact ih _ hrest (by simp [hst])
    · split
      · exact ih _ hrest (by simp [hst])
      · split
        · simp [finalState, hst]
        all_goals first
          | exact absurd ‹step.on_error = "retry"› hstep
          | exact ih _ hrest (by simp [hst])
/-- C2 (amended): in every run in which no step has `on_error = "retry"`,
the `results` list returned by `execute_recipe` equals, entry for entry
and in order, the per-step outcomes recorded in the execution log's
`steps` list.  (A success outcome recorded by a retry is appended to
`results` only, so the lists can differ when a retry succeeds.) -/
theorem executeRecipe_results_mirror_log {σ : Type} (registry : Registry σ)
    (recipe : Recipe) (vars? : Option (List (String × Value))) (w : σ)
    (h : ∀ s ∈ recipe.steps, s.on_error ≠ "retry") :
    (executeRecipe registry recipe vars? w).results =
      (executeRecipe registry recipe vars? w).logSteps := by
  rw [executeRecipe, sealRun_results, sealRun_logSteps]
  exact execLoop_results_eq_logSteps registry recipe.steps _ h rfl

/-- Witness for `executeRecipe_results_mirror_log` on a concrete
two-step retry-free run. -/
theorem executeRecipe_results_mirror_log_witness :
    (executeRecipe okRegistry okRecipe none 0).results =
      (executeRecipe okRegistry okRecipe none 0).logSteps := by
  refine executeRecipe_results_mirror_log okRegistry okRecipe none 0 ?_
  intro s hs
  rcases List.mem_cons.mp hs with rfl | hs
  · decide
  · rcases List.mem_cons.mp hs with rfl | hs
    · decide
    · cases hs

/-- C2 counterexample: with a step whose first invocation fails and
whose retry succeeds, `results` receives both the error and the retry
success while the execution log's `steps` list only records the error,
so the two lists are not equal entry for entry. -/
theorem results_log_mismatch_on_retry :
    (executeRecipe flakyRegistry retryRecipe none 0).results.length = 2
    ∧ (executeRecipe flakyRegistry retryRecipe none 0).logSteps.length = 1 :=
  ⟨rfl, rfl⟩

/-! ### The retry policy -/

theorem executeStep_calls {σ : Type} (registry : Registry σ) (step : RecipeStep)
    (vars : List (String × Value)) (w : σ) :
    ∀ c ∈ (executeStep registry step vars w).2.1,
      c.params = substituteVariables step.parameters vars := by
  simp only [executeStep]
  split
  · intro c hc
    cases hc
  · split
    · intro c hc
      rcases List.mem_singleton.mp hc with rfl
      rfl
    · intro c hc
      rcases List.mem_singleton.mp hc with rfl
      rfl

/-- C1 (amended): for a step with `on_error = "retry"` that is not
skipped and whose first invocation fails, the loop re-invokes the step
exactly once more against the unchanged variable context (so with the
same substituted parameters, first conjunct), appends the error outcome
to both `results` and the log, and then: if the retry succeeds its
success outcome is appended to `results` only (not to the log) and no
`step_<id>_result` binding is made; whether the retry succeeds or
fails, execution proceeds with the remaining steps without halting. -/
theorem execLoop_retry_policy {σ : Type} (registry : Registry σ) (step : RecipeStep)
    (rest : List RecipeStep) (st : RunState σ) (w' : σ) (calls : List StepCall) (e : String)
    (hskip : shouldSkip step.condition st.vars st.results = false)
    (hfail : executeStep registry step st.vars st.world = (w', calls, .error e))
    (hretry : step.on_error = "retry") :
    (∀ c ∈ (executeStep registry step st.vars w').2.1,
        c.params = substituteVariables step.parameters st.vars)
    ∧ execLoop registry (step :: rest) st =
        (match executeStep registry step st.vars w' with
         | (w2, calls2, .ok r2) =>
            execLoop registry rest
              ⟨st.vars,
               (st.results ++ [.error step.id step.tool_name e]) ++ [r2],
               st.logSteps ++ [.error step.id step.tool_name e],
               (st.trace ++ calls) ++ calls2, w2⟩
         | (w2, calls2, .error _) =>
            execLoop registry rest
              ⟨st.vars,
               st.results ++ [.error step.id step.tool_name e],
               st.logSteps ++ [.error step.id step.tool_name e],
               (st.trace ++ calls) ++ calls2, w2⟩) := by
  refine ⟨executeStep_calls registry step st.vars w', ?_⟩
  simp only [execLoop, hskip, hfail, hretry]
  simp only [Bool.false_eq_true, if_false]
  rcases h2 : executeStep registry step st.vars w' with ⟨w2, calls2, out2⟩
  cases out2 <;> rfl

/-- Witness for `execLoop_retry_policy`: the flaky tool fails once and
succeeds on the retry; the final state shows the retry success in
`results` only, no variable binding, and exactly two invocations. -/
theorem execLoop_retry_policy_witness :
    execLoop flakyRegistry [retryStep] ⟨[], [], [], [], 0⟩ =
      .completed ⟨[], [.error "s1" "t" "Step s1 failed: boom",
                       .success "s1" "t" (.str "ok")],
                  [.error "s1" "t" "Step s1 failed: boom"],
                  [⟨"s1", "t", []⟩, ⟨"s1", "t", []⟩], 2⟩ := by
  have h := (execLoop_retry_policy flakyRegistry retryStep [] ⟨[], [], [], [], 0⟩ 1
      [⟨"s1", "t", []⟩] "Step s1 failed: boom" rfl rfl rfl).2
  exact h.trans rfl

/-- C1 counterexample: in the same run the retry's success outcome is
recorded in `results`, yet `step_s1_result` is never bound in the
variable context, contradicting the claim that a successful retry binds
its result for later steps. -/
theorem retry_success_does_not_bind :
    (executeRecipe flakyRegistry retryRecipe none 0).results.map StepResult.status
        = ["error", "success"]
    ∧ lookupVar (executeRecipe flakyRegistry retryRecipe none 0).vars "step_s1_result"
        = none :=
  ⟨rfl, rfl⟩

/-! ### The stop policy -/

/-- C3: when a run reaches a step with `on_error = "stop"` that is not
skipped and whose execution fails, the run returns immediately with
status `failed`, the triggering error, exactly the outcomes recorded up
to and including that step's error outcome, a trace extended only by
that step's invocation, and a result identical to the run of the recipe
truncated after the failing step — no later step is invoked. -/
theorem executeRecipe_stop_policy {σ : Type} (registry : Registry σ) (recipe : Recipe)
    (pre post : List RecipeStep) (step : RecipeStep)
    (vars? : Option (List (String × Value))) (w : σ) (st : RunState σ)
    (w' : σ) (calls : List StepCall) (e : String)
    (hsteps : recipe.steps = pre ++ step :: post)
    (hpre : execLoop registry pre ⟨vars?.getD [], [], [], [], w⟩ = .completed st)
    (hskip : shouldSkip step.condition st.vars st.results = false)
    (hfail : executeStep registry step st.vars st.world = (w', calls, .error e))
    (hstop : step.on_error = "stop") :
    (executeRecipe registry recipe vars? w).status = "failed"
    ∧ (executeRecipe registry recipe vars? w).error = some e
    ∧ (executeRecipe registry recipe vars? w).results =
        st.results ++ [.error step.id step.tool_name e]
    ∧ (executeRecipe registry recipe vars? w).trace = st.trace ++ calls
    ∧ executeRecipe registry recipe vars? w =
        executeRecipe registry { recipe with steps := pre ++ [step] } vars? w := by
  have key : ∀ tail : List RecipeStep,
      execLoop registry (pre ++ step :: tail) ⟨vars?.getD [], [], [], [], w⟩ =
        .failedEarly e ⟨st.vars, st.results ++ [.error step.id step.tool_name e],
          st.logSteps ++ [.error step.id step.tool_name e], st.trace ++ calls, w'⟩ := by
    intro tail
    rw [execLoop_append, hpre]
    simp only [execLoop, hskip, hfail, hstop]
    simp
  have h1 : executeRecipe registry recipe vars? w =
      sealRun (.failedEarly e ⟨st.vars, st.results ++ [.error step.id step.tool_name e],
        st.logSteps ++ [.error step.id step.tool_name e], st.trace ++ calls, w'⟩) := by
    rw [executeRecipe, hsteps, key post]
  have h2 : executeRecipe registry { recipe with steps := pre ++ [step] } vars? w =
      sealRun (.failedEarly e ⟨st.vars, st.results ++ [.error step.id step.tool_name e],
        st.logSteps ++ [.error step.id step.tool_name e], st.trace ++ calls, w'⟩) := by
    show sealRun (execLoop registry (pre ++ step :: []) ⟨vars?.getD [], [], [], [], w⟩) = _
    rw [key []]
  rw [h1, h2]
  exact ⟨rfl, rfl, rfl, rfl, rfl⟩

/-- Witness for `executeRecipe_stop_policy`: a one-step recipe whose
tool always fails under the `stop` policy returns a failed run holding
exactly the error outcome. -/
theorem executeRecipe_stop_policy_witness :
    (executeRecipe failRegistry stopRecipe none 0).status = "failed"
    ∧ (executeRecipe failRegistry stopRecipe none 0).error = some "Step s1 failed: bad"
    ∧ (executeRecipe failRegistry stopRecipe none 0).results =
        [.error "s1" "t" "Step s1 failed: bad"] := by
  have h := executeRecipe_stop_policy failRegistry stopRecipe [] [] stopStep none 0
      ⟨[], [], [], [], 0⟩ 0 [⟨"s1", "t", []⟩] "Step s1 failed: bad" rfl rfl rfl rfl rfl
  exact ⟨h.1, h.2.1, h.2.2.1.trans rfl⟩

/-! ### All-success runs -/

theorem execLoop_all_success {σ : Type} (registry : Registry σ) (steps : List RecipeStep)
    (st : RunState σ)
    (hcond : ∀ s ∈ steps, s.condition = none)
    (hok : ∀ s ∈ steps, ∃ f, registry s.tool_name = some f ∧
        ∀ w0 p, ∃ w1 v, f w0 p = (w1, Except.ok v)) :
    ∃ st', execLoop registry steps st = .completed st'
      ∧ st'.results.map StepResult.stepId =
          st.results.map StepResult.stepId ++ steps.map RecipeStep.id := by
  induction steps generalizing st with
  | nil => exact ⟨st, rfl, by simp⟩
  | cons step rest ih =>
    obtain ⟨f, hf, hfok⟩ := hok step (List.mem_cons_self _ _)
    obtain ⟨w', v, hfw⟩ := hfok st.world (substituteVariables step.parameters st.vars)
    have hc : step.condition = none := hcond step (List.mem_cons_self _ _)
    have hstep : executeStep registry step st.vars st.world =
        (w', [⟨step.id, step.tool_name, substituteVariables step.parameters st.vars⟩],
          .ok (.success step.id step.tool_name v)) := by
      simp only [executeStep, hf, hfw]
    have hskip : shouldSkip step.condition st.vars st.results = false := by
      rw [hc]
      rfl
    obtain ⟨st', h1, h2⟩ := ih
      ⟨setVar st.vars ("step_" ++ step.id ++ "_result") v,
        st.results ++ [.success step.id step.tool_name v],
        st.logSteps ++ [.success step.id step.tool_name v],
        st.trace ++ [⟨step.id, step.tool_name, substituteVariables step.parameters st.vars⟩],
        w'⟩
      (fun s hs => hcond s (List.mem_cons_of_mem _ hs))
      (fun s hs => hok s (List.mem_cons_of_mem _ hs))
    refine ⟨st', ?_, ?_⟩
    · simp only [execLoop, hskip, hstep, Bool.false_eq_true, if_false,
        StepResult.getResult]
      exact h1
    · rw [h2]
      simp [StepResult.stepId]

/-- C7: a run of a recipe in which no step has a condition and every
step's tool is registered and always succeeds returns status
`completed` with one outcome per step, carrying the steps' identifiers
in the recipe's declared order; with an empty step list this yields a
completed run with an empty outcomes list for any input variables. -/
theorem executeRecipe_all_success {σ : Type} (registry : Registry σ) (recipe : Recipe)
    (vars? : Option (List (String × Value))) (w : σ)
    (hcond : ∀ s ∈ recipe.steps, s.condition = none)
    (hok : ∀ s ∈ recipe.steps, ∃ f, registry s.tool_name = some f ∧
        ∀ w0 p, ∃ w1 v, f w0 p = (w1, Except.ok v)) :
    (executeRecipe registry recipe vars? w).status = "completed"
    ∧ (executeRecipe registry recipe vars? w).results.map StepResult.stepId =
        recipe.steps.map RecipeStep.id
    ∧ (executeRecipe registry recipe vars? w).results.length = recipe.steps.length := by
  obtain ⟨st', h1, h2⟩ :=
    execLoop_all_success registry recipe.steps ⟨vars?.getD [], [], [], [], w⟩ hcond hok
  simp only [List.map_nil, List.nil_append] at h2
  rw [executeRecipe, h1]
  refine ⟨rfl, h2, ?_⟩
  have hlen := congrArg List.length h2
  simpa using hlen

/-- Witness for `executeRecipe_all_success`: a two-step recipe with an
always-succeeding tool completes with both step identifiers in order,
and an empty recipe completes with no outcomes even when variables are
supplied. -/
theorem executeRecipe_all_success_witness :
    ((executeRecipe okRegistry okRecipe none 0).status = "completed"
      ∧ (executeRecipe okRegistry okRecipe none 0).results.map StepResult.stepId
          = ["a", "b"])
    ∧ ((executeRecipe okRegistry emptyRecipe (some [("x", .int 1)]) 0).status = "completed"
      ∧ (executeRecipe okRegistry emptyRecipe (some [("x", .int 1)]) 0).results = []) := by
  constructor
  · have h := executeRecipe_all_success okRegistry okRecipe none 0 ?_ ?_
    · exact ⟨h.1, h.2.1.trans rfl⟩
    · intro s hs
      rcases List.mem_cons.mp hs with rfl | hs
      · rfl
      · rcases List.mem_cons.mp hs with rfl | hs
        · rfl
        · cases hs
    · intro s hs
      refine ⟨fun w0 _ => (w0, .ok (.str "done")), ?_, fun w0 p => ⟨w0, .str "done", rfl⟩⟩
      rcases List.mem_cons.mp hs with rfl | hs
      · rfl
      · rcases List.mem_cons.mp hs with rfl | hs
        · rfl
        · cases hs
  · have h := executeRecipe_all_success okRegistry emptyRecipe (some [("x", .int 1)]) 0
      (fun s hs => absurd hs (List.not_mem_nil s))
      (fun s hs => absurd hs (List.not_mem_nil s))
    refine ⟨h.1, ?_⟩
    have := h.2.2
    exact List.length_eq_zero.mp (this.trans rfl)

/-! ### Frame properties of the variable context -/

theorem execLoop_logSteps_grow {σ : Type} (registry : Registry σ)
    (steps : List RecipeStep) (st : RunState σ) :
    st.logSteps <+: (finalState (execLoop registry steps st)).logSteps := by
  induction steps generalizing st with
  | nil => exact List.prefix_refl _
  | cons step rest ih =>
    simp only [execLoop]
    repeat' split
    all_goals first
      | exact List.prefix_append _ _
      | (refine List.IsPrefix.trans ?_ (ih _)
         exact List.prefix_append _ _)

theorem execLoop_hasKey_mono {σ : Type} (registry : Registry σ)
    (steps : List RecipeStep) (st : RunState σ) (k : String)
    (h : hasKey st.vars k = true) :
    hasKey (finalState (execLoop registry steps st)).vars k = true := by
  induction steps generalizing st with
  | nil => exact h
  | cons step rest ih =>
    simp only [execLoop]
    repeat' split
    all_goals first
      | exact h
      | exact ih _ h
      | (refine ih _ ?_
         exact hasKey_setVar_of_hasKey _ _ _ _ h)

theorem executeStep_ok_shape {σ : Type} (registry : Registry σ) (step : RecipeStep)
    (vars : List (String × Value)) (w w' : σ) (calls : List StepCall) (r : StepResult)
    (h : executeStep registry step vars w = (w', calls, Except.ok r)) :
    ∃ v, r = StepResult.success step.id step.tool_name v := by
  simp only [executeStep] at h
  split at h
  · simp at h
  · split at h
    · simp only [Prod.mk.injEq, Except.ok.injEq] at h
      exact ⟨_, h.2.2.symm⟩
    · simp at h

theorem execLoop_success_key {σ : Type} (registry : Registry σ)
    (steps : List RecipeStep) (st : RunState σ) :
    ∀ i t r, StepResult.success i t r ∈ (finalState (execLoop registry steps st)).logSteps →
      StepResult.success i t r ∈ st.logSteps ∨
      hasKey (finalState (execLoop registry steps st)).vars
        ("step_" ++ i ++ "_result") = true := by
  induction steps generalizing st with
  | nil => exact fun i t r hm => Or.inl hm
  | cons step rest ih =>
    simp only [execLoop]
    repeat' split
    · intro i t r hm
      rcases ih _ i t r hm with hin | hk
      · rcases List.mem_append.mp hin with hin2 | hin2
        · exact Or.inl hin2
        · exact StepResult.noConfusion (List.mem_singleton.mp hin2)
      · exact Or.inr hk
    · rename_i x w2 calls2 r2 heq
      intro i t r hm
      rcases ih _ i t r hm with hin | hk
      · rcases List.mem_append.mp hin with hin2 | hin2
        · exact Or.inl hin2
        · obtain ⟨v, hv⟩ := executeStep_ok_shape registry step st.vars st.world w2 calls2 r2 heq
          have heq2 := List.mem_singleton.mp hin2
          rw [hv] at heq2
          cases heq2
          refine Or.inr (execLoop_hasKey_mono registry rest _ _ ?_)
          simp [hasKey, lookupVar_setVar_self]
      · exact Or.inr hk
    · intro i t r hm
      rcases List.mem_append.mp hm with hin | hin
      · exact Or.inl hin
      · exact StepResult.noConfusion (List.mem_singleton.mp hin)
    · intro i t r hm
      rcases ih _ i t r hm with hin | hk
      · rcases List.mem_append.mp hin with hin2 | hin2
        · exact Or.inl hin2
        · exact StepResult.noConfusion (List.mem_singleton.mp hin2)
      · exact Or.inr hk
    · intro i t r hm
      rcases ih _ i t r hm with hin | hk
      · rcases List.mem_append.mp hin with hin2 | hin2
        · exact Or.inl hin2
        · exact StepResult.noConfusion (List.mem_singleton.mp hin2)
      · exact Or.inr hk
    · intro i t r hm
      rcases ih _ i t r hm with hin | hk
      · rcases List.mem_append.mp hin with hin2 | hin2
        · exact Or.inl hin2
        · exact StepResult.noConfusion (List.mem_singleton.mp hin2)
      · exact Or.inr hk

theorem execLoop_vars_change {σ : Type} (registry : Registry σ)
    (steps : List RecipeStep) (st : RunState σ) (k : String) :
    lookupVar (finalState (execLoop registry steps st)).vars k = lookupVar st.vars k ∨
    ∃ i, (∃ t r, StepResult.success i t r ∈
        (finalState (execLoop registry steps st)).logSteps)
      ∧ k = "step_" ++ i ++ "_result" := by
  induction steps generalizing st with
  | nil => exact Or.inl rfl
  | cons step rest ih =>
    simp only [execLoop]
    repeat' split
    · exact (ih _).imp (fun h => h) (fun hx => hx)
    · rename_i x w2 calls2 r2 heq
      obtain ⟨v, hv⟩ := executeStep_ok_shape registry step st.vars st.world w2 calls2 r2 heq
      by_cases hkey : k = "step_" ++ step.id ++ "_result"
      · refine Or.inr ⟨step.id, ⟨step.tool_name, v, ?_⟩, hkey⟩
        refine (execLoop_logSteps_grow registry rest _).subset ?_
        rw [hv]
        exact List.mem_append_right _ (List.mem_singleton_self _)
      · refine Or.imp ?_ ?_
          (ih ⟨setVar st.vars ("step_" ++ step.id ++ "_result") r2.getResult,
            st.results ++ [r2], st.logSteps ++ [r2], st.trace ++ calls2, w2⟩)
        · intro h
          exact h.trans (lookupVar_setVar_ne st.vars _ k _ (Ne.symm hkey))
        · intro hx
          exact hx
    · exact Or.inl rfl
    · exact (ih _).imp (fun h => h) (fun hx => hx)
    · exact (ih _).imp (fun h => h) (fun hx => hx)
    · exact (ih _).imp (fun h => h) (fun hx => hx)

/-- C10: a run started from an empty caller dict leaves the caller's
(empty) dict untouched — `variables or \x7b\x7d` rebinds to a fresh dict —
while a non-empty caller dict is the very dict the run mutates: after
the run it carries a `step_<id>_result` key for every step whose first
invocation succeeded (a success outcome in the execution log), and
every entry under a key not of that bound form is unchanged. -/
theorem callerVariables_frame {σ : Type} (registry : Registry σ) (recipe : Recipe)
    (callerVars : List (String × Value)) (w : σ) :
    callerVariablesAfter registry recipe [] w = []
    ∧ (callerVars ≠ [] →
        callerVariablesAfter registry recipe callerVars w =
          (executeRecipe registry recipe (some callerVars) w).vars
        ∧ (∀ i t r, StepResult.success i t r ∈
              (executeRecipe registry recipe (some callerVars) w).logSteps →
            hasKey (executeRecipe registry recipe (some callerVars) w).vars
              ("step_" ++ i ++ "_result") = true)
        ∧ (∀ k, (∀ i, (∃ t r, StepResult.success i t r ∈
              (executeRecipe registry recipe (some callerVars) w).logSteps) →
                k ≠ "step_" ++ i ++ "_result") →
            lookupVar (executeRecipe registry recipe (some callerVars) w).vars k =
              lookupVar callerVars k)) := by
  constructor
  · rfl
  · intro hne
    refine ⟨?_, ?_, ?_⟩
    · rw [callerVariablesAfter, if_neg]
      simpa using hne
    · intro i t r hm
      rw [executeRecipe, sealRun_logSteps] at hm
      rw [executeRecipe, sealRun_vars]
      rcases execLoop_success_key registry recipe.steps
          ⟨(some callerVars).getD [], [], [], [], w⟩ i t r hm with hin | hk
      · exact absurd hin (List.not_mem_nil _)
      · exact hk
    · intro k hk
      rw [executeRecipe, sealRun_vars]
      rcases execLoop_vars_change registry recipe.steps
          ⟨(some callerVars).getD [], [], [], [], w⟩ k with h | ⟨i, hex, hkey⟩
      · exact h
      · refine absurd hkey (hk i ?_)
        rw [executeRecipe, sealRun_logSteps]
        exact hex

/-- Witness for `callerVariables_frame` on a concrete two-step
all-success run: the caller's dict is the run's final dict, the
caller-supplied entry is untouched, and the first step's result key was
added. -/
theorem callerVariables_frame_witness :
    callerVariablesAfter okRegistry okRecipe [("x", .int 1)] 0 =
      (executeRecipe okRegistry okRecipe (some [("x", .int 1)]) 0).vars
    ∧ lookupVar (executeRecipe okRegistry okRecipe (some [("x", .int 1)]) 0).vars "x" =
        some (.int 1)
    ∧ hasKey (executeRecipe okRegistry okRecipe (some [("x", .int 1)]) 0).vars
        "step_a_result" = true := by
  have h := (callerVariables_frame okRegistry okRecipe [("x", .int 1)] 0).2 (by simp)
  have hlog : (executeRecipe okRegistry okRecipe (some [("x", .int 1)]) 0).logSteps
      = [.success "a" "t" (.str "done"), .success "b" "t" (.str "done")] := rfl
  refine ⟨h.1, ?_, ?_⟩
  · have hx := h.2.2 "x" ?_
    · exact hx.trans rfl
    · intro i hex
      obtain ⟨t, r, hm⟩ := hex
      rw [hlog] at hm
      rcases List.mem_cons.mp hm with heq | hm
      · cases heq
        decide
      · rcases List.mem_cons.mp hm with heq | hm
        · cases heq
          decide
        · exact absurd hm (List.not_mem_nil _)
  · refine h.2.1 "a" "t" (.str "done") ?_
    rw [hlog]
    exact List.mem_cons_self _ _

/-! ### Round-tripping the wire format -/

theorem recipeStep_fromDict_toDict (step : RecipeStep) :
    RecipeStep.fromDict (RecipeStep.toDict step) = some step := by
  cases step with
  | mk id tool_name description parameters condition on_error =>
    cases condition <;>
      simp [RecipeStep.toDict, RecipeStep.fromDict, Value.asDict, Value.asStr, lookupVar]

theorem decodeList_fromDict_toDict (steps : List RecipeStep) :
    decodeList RecipeStep.fromDict (steps.map RecipeStep.toDict) = some steps := by
  induction steps with
  | nil => rfl
  | cons step rest ih => simp [decodeList, recipeStep_fromDict_toDict, ih]

theorem decodeList_asStr_str (tags : List String) :
    decodeList Value.asStr (tags.map Value.str) = some tags := by
  induction tags with
  | nil => rfl
  | cons tag rest ih => simp [decodeList, Value.asStr, ih]

/-- C8: deserializing a serialized recipe reproduces an equal recipe:
`Recipe.from_dict (Recipe.to_dict r) = r` for every recipe, with every
field — identifiers, name, description, category, the full step list
with parameters, condition and error policy, metadata, both timestamps,
version, author and tags — preserved, whatever the ambient default
timestamp is. -/
theorem recipe_from_dict_to_dict (now : String) (r : Recipe) :
    Recipe.from_dict now (Recipe.to_dict r) = some r := by
  cases r with
  | mk id name description category steps metadata created_at updated_at version author tags =>
    have h1 : Recipe.from_dict now (Recipe.to_dict
        ⟨id, name, description, category, steps, metadata, created_at, updated_at,
         version, author, tags⟩) =
        Option.bind (decodeList RecipeStep.fromDict (steps.map RecipeStep.toDict))
          (fun steps2 =>
            Option.bind (decodeList Value.asStr (tags.map Value.str))
              (fun tags2 =>
                some ⟨id, name, description, category, steps2, metadata, created_at,
                      updated_at, version, author, tags2⟩)) := rfl
    rw [h1, decodeList_fromDict_toDict, decodeList_asStr_str]
    rfl

/-! ### Listing recipes -/

theorem mergeSort_updated_desc (l : List Recipe) :
    (l.mergeSort (fun a b => decide (b.updated_at ≤ a.updated_at))).Pairwise
      (fun a b => b.updated_at ≤ a.updated_at) := by
  have htrans : ∀ a b c : Recipe, decide (b.updated_at ≤ a.updated_at) = true →
      decide (c.updated_at ≤ b.updated_at) = true →
      decide (c.updated_at ≤ a.updated_at) = true := by
    intro a b c h1 h2
    simp only [decide_eq_true_eq] at h1 h2 ⊢
    exact le_trans h2 h1
  have htotal : ∀ a b : Recipe, (decide (b.updated_at ≤ a.updated_at)
      || decide (a.updated_at ≤ b.updated_at)) = true := by
    intro a b
    simp [le_total]
  have h := List.sorted_mergeSort htrans htotal l
  exact h.imp (fun hab => of_decide_eq_true hab)

/-- C9: over any stored recipes, `list_recipes` filters conjunctively —
a recipe is in the output iff it is stored, matches the category when a
(non-falsy) one is given, and shares at least one tag with a given
(non-falsy) tag list — and the output is ordered by `updated_at`
descending, most recently updated first. -/
theorem list_recipes_spec (stored : List Recipe) (category : Option String)
    (tags : Option (List String))
    (hcat : category ≠ some "") (htags : tags ≠ some []) :
    (∀ r, r ∈ list_recipes stored category tags ↔
        r ∈ stored
        ∧ (∀ c, category = some c → r.category = c)
        ∧ (∀ ts, tags = some ts → matchesAnyTag ts r = true))
    ∧ (list_recipes stored category tags).Pairwise
        (fun a b => b.updated_at ≤ a.updated_at) := by
  rcases category with _ | c
  · rcases tags with _ | ts
    · refine ⟨fun r => ?_, mergeSort_updated_desc _⟩
      simp [list_recipes]
    · have hts : ts ≠ [] := fun h => htags (by rw [h])
      constructor
      · intro r
        simp [list_recipes, hts, List.mem_filter]
      · have h := mergeSort_updated_desc
          (stored.filter (fun r => matchesAnyTag ts r))
        simpa [list_recipes, hts] using h
  · have hc : c ≠ "" := fun h => hcat (by rw [h])
    rcases tags with _ | ts
    · constructor
      · intro r
        simp [list_recipes, hc, List.mem_filter]
      · have h := mergeSort_updated_desc
          (stored.filter (fun r => decide (r.category = c)))
        simpa [list_recipes, hc] using h
    · have hts : ts ≠ [] := fun h => htags (by rw [h])
      constructor
      · intro r
        simp [list_recipes, hc, hts, List.mem_filter, and_assoc, and_comm]
      · have h := mergeSort_updated_desc
          ((stored.filter (fun r => decide (r.category = c))).filter
            (fun r => matchesAnyTag ts r))
        simpa [list_recipes, hc, hts] using h

/-- Witness for `list_recipes_spec`: with category `alpha` and tag `x`
given, the matching recipe is returned and the non-matching one is
not. -/
theorem list_recipes_spec_witness :
    recA ∈ list_recipes [recA, recB, recC] (some "alpha") (some ["x"])
    ∧ recB ∉ list_recipes [recA, recB, recC] (some "alpha") (some ["x"]) := by
  have h := list_recipes_spec [recA, recB, recC] (some "alpha") (some ["x"])
    (by simp) (by simp)
  constructor
  · refine (h.1 recA).mpr ⟨by simp, ?_, ?_⟩
    · intro c hc
      cases hc
      rfl
    · intro ts hts
      cases hts
      rfl
  · intro hmem
    have h2 := (h.1 recB).mp hmem
    have h3 := h2.2.1 "alpha" rfl
    exact absurd h3 (by decide)

end Recipes
